import Mathlib

/-!
# Formal model of the mapo charting library's tick and label engine

This file embeds the axis tick-generation and label-fitting core of the
mapo 2D charting library (files `interval.rs`, `ticker.rs`, `sequence.rs`,
`axis.rs`) and proves properties about it.

Embedding conventions:

* `f64` values are modelled as exact rationals `ℚ`.  Every claim below is
  about the algorithmic (exact-arithmetic) content of the code; rounding of
  IEEE-754 doubles is not modelled.  In particular
  `10.0f64.powf(x.log10().floor())` is modelled exactly as
  `(10 : ℚ) ^ Int.log 10 x`, and `0.1` as `1/10`.
* `f64::NAN` is modelled as `Option ℚ` at the places it can actually flow
  (the spacing returned by `calc_tick_spacing`, and the derived start
  value and tick positions of `IntervalTicker`).  `none` stands for NaN.
* Rust panics (assertion failures, `Option::expect`/`unwrap`, and `usize`
  subtraction overflow, which aborts in debug builds) are modelled as
  `Except String`/`Option` results, `Except.error`/`none` standing for the
  panic.
* `usize` is modelled as `ℕ`; the cast `f64 as usize` (truncate toward
  zero, saturating at 0 for negative or NaN input) is modelled as
  `Int.toNat ∘ Int.floor`, which agrees with it on all values produced
  here (non-negative or clamped to zero).

All definitions are translated from the Rust source; the file points at
the function each definition models.
-/

namespace Mapo

deriving instance DecidableEq for Except

/-! ## `interval.rs`: `Interval` and the tick-spacing helpers -/

/-- Model of `struct Interval { min: f64, max: f64 }` (interval.rs).
The `±∞` sentinel used by `Default`/`FromIterator` is modelled separately
below (`IntervalE`), since all tick computations work on finite bounds. -/
structure Interval where
  min : ℚ
  max : ℚ
deriving DecidableEq

/-- Model of `Interval::is_valid`: `min.is_finite() && max.is_finite() && min < max`.
Finiteness is automatic for `ℚ`. -/
def Interval.is_valid (i : Interval) : Prop := i.min < i.max

instance (i : Interval) : Decidable i.is_valid :=
  inferInstanceAs (Decidable (i.min < i.max))

/-- Model of `Interval::size`: `max - min`. -/
def Interval.size (i : Interval) : ℚ := i.max - i.min

/-- Model of `f64::rem_euclid(v, s)` for the moduli used here (`s > 0`):
the remainder `v - s * ⌊v / s⌋`, which lies in `[0, s)`. -/
def rem_euclid (v s : ℚ) : ℚ := v - s * ⌊v / s⌋

/-- Model of `calc_next_tick(v, spacing)` (interval.rs): the first tick at or
after `v`. -/
def calc_next_tick (v spacing : ℚ) : ℚ :=
  let v_tick_diff := rem_euclid v spacing
  if v_tick_diff = 0 then v else v - v_tick_diff + spacing

/-- Model of `calc_prev_tick(v, spacing)` (interval.rs): the first tick at or
before `v`.  (The `v_tick_diff == spacing` branch guards against f64
rounding; with exact arithmetic it never fires for `spacing > 0`.) -/
def calc_prev_tick (v spacing : ℚ) : ℚ :=
  let v_tick_diff := rem_euclid v spacing
  if v_tick_diff = spacing then v else v - v_tick_diff

/-- Model of `count_ticks(interval, tick_step)` (interval.rs):
`((end - start) / tick_step).floor() as usize + 1`.  The `as usize` cast
saturates negative values to `0`, which `Int.toNat` reproduces. -/
def count_ticks (i : Interval) (tick_step : ℚ) : ℕ :=
  let start := calc_next_tick i.min tick_step
  let stop := calc_prev_tick i.max tick_step
  (⌊(stop - start) / tick_step⌋).toNat + 1

/-- Model of `pow_10_just_too_many(interval, num_ticks)` (interval.rs).
`10.0f64.powf(ideal_spacing.log10().floor())` is `10 ^ ⌊log₁₀ ideal⌋`,
i.e. `10 ^ Int.log 10 ideal` for positive `ideal`; `spacing * 0.1` is
`spacing * (1/10)`. -/
def pow_10_just_too_many (i : Interval) (num_ticks : ℕ) : ℚ :=
  -- -1 for fence/fence post (usize subtraction; the only caller guarantees
  -- `num_ticks >= 2`)
  let n : ℚ := ((num_ticks - 1 : ℕ) : ℚ)
  let ideal_spacing := i.size / n
  let spacing : ℚ := (10 : ℚ) ^ (Int.log 10 ideal_spacing)
  let first_tick := calc_next_tick i.min spacing
  if first_tick + n * spacing < calc_prev_tick i.max spacing then
    spacing
  else
    spacing * (1 / 10)

/-- Model of `calc_tick_spacing(interval, target_count)` (interval.rs).
The `f64::NAN` return is modelled as `none`. -/
def calc_tick_spacing (i : Interval) (target_count : ℕ) : Option ℚ :=
  if target_count ≤ 1 ∨ i.size = 0 then
    -- We don't support a number of ticks less than 2.
    none
  else
    let too_many_10s := pow_10_just_too_many i target_count
    if count_ticks i (2 * too_many_10s) ≤ target_count then
      some (2 * too_many_10s)
    else if count_ticks i (5 * too_many_10s) ≤ target_count then
      some (5 * too_many_10s)
    else
      some (too_many_10s * 10)

/-! ## `ticker.rs`: `Tick` and `IntervalTicker` -/

/-- Model of `struct Tick { pos: f64, label: Arc<str> }` (ticker.rs).
`pos = none` stands for a NaN position. -/
structure Tick where
  pos : Option ℚ
  label : String
deriving DecidableEq

/-- Model of `struct IntervalTicker` (interval.rs): the wrapped interval plus
the state retained by `layout`.  `step` and `start` inside
`step_start_count` are `Option ℚ` because they are NaN whenever
`calc_tick_spacing` returns NaN. -/
structure IntervalTicker where
  interval : Interval
  step_start_count : Option ((Option ℚ) × (Option ℚ) × ℕ)
  transform : Option (ℚ × ℚ)
deriving DecidableEq

/-- Model of `IntervalTicker::new` (interval.rs). -/
def IntervalTicker.new (interval : Interval) : IntervalTicker :=
  { interval := interval, step_start_count := none, transform := none }

/-- Model of `<IntervalTicker as Ticker>::layout` (interval.rs).
`(axis_len / (20. * 3.)) as usize` truncates toward zero and saturates at
`0`, matching `Int.toNat ∘ Int.floor` on every input; the `count`
computation `((max - start) / step) as usize + 1` yields `0 + 1` when
`step`/`start` are NaN.  (`scale = axis_len / size` is only queried through
claims that assume a valid interval, where `size ≠ 0`.) -/
def IntervalTicker.layout (t : IntervalTicker) (axis_len : ℚ) : IntervalTicker :=
  let max_count : ℕ := (⌊axis_len / (20 * 3)⌋).toNat
  let step : Option ℚ := calc_tick_spacing t.interval max_count
  let start : Option ℚ := step.map (calc_next_tick t.interval.min)
  let count : ℕ :=
    (match step, start with
      | some s, some st => (⌊(t.interval.max - st) / s⌋).toNat
      | _, _ => 0) + 1
  let scale := axis_len / t.interval.size
  let translate := -t.interval.min * scale
  { t with
    step_start_count := some (step, start, count)
    transform := some (scale, translate) }

/-- Model of `<IntervalTicker as Ticker>::len` (interval.rs); the
`.expect("layout not called")` panic is the `Except.error`. -/
def IntervalTicker.len (t : IntervalTicker) : Except String ℕ :=
  match t.step_start_count with
  | none => .error "layout not called"
  | some (_, _, count) => .ok count

/-- Model of `<IntervalTicker as Ticker>::get` (interval.rs).  A NaN `val`
(from a NaN step) produces a NaN `pos` and the label `"NaN"`. -/
def IntervalTicker.get (t : IntervalTicker) (idx : ℕ) : Except String (Option Tick) :=
  match t.step_start_count, t.transform with
  | some (step, start, count), some (scale, translate) =>
    if idx ≥ count then .ok none
    else
      let val : Option ℚ :=
        match step, start with
        | some s, some st => some ((idx : ℚ) * s + st)
        | _, _ => none
      .ok (some
        { pos := val.map (fun v => v * scale + translate)
          label := match val with
            | some v => toString v
            | none => "NaN" })
  | _, _ => .error "layout not called"

/-- The property claimed of every tick position: it is a (non-NaN) number
lying within `[0, axis_len]`. -/
def posInRange (tk : Tick) (axis_len : ℚ) : Prop :=
  ∃ p, tk.pos = some p ∧ 0 ≤ p ∧ p ≤ axis_len

/-! ## `ticker.rs`: the `Ticker` trait and `ReverseTicker`

The Rust `Ticker` trait is modelled as a record of operations over an
abstract state type `σ`: `layout` (state transformer), `len` and `get`
(queries that may panic, hence `Except`). -/

/-- Interface of the `Ticker` trait (ticker.rs) over a state type `σ`. -/
structure TickerOps (σ : Type) where
  layoutF : σ → ℚ → σ
  lenF : σ → Except String ℕ
  getF : σ → ℕ → Except String (Option Tick)

/-- Model of `struct ReverseTicker<T> { ticker: T, axis_len: Option<f64> }`
(ticker.rs). -/
structure ReverseTicker (σ : Type) where
  ticker : σ
  axis_len : Option ℚ
deriving DecidableEq

/-- Model of `TickerExt::reverse` (ticker.rs): wrap with `axis_len: None`. -/
def ReverseTicker.new {σ : Type} (ticker : σ) : ReverseTicker σ :=
  { ticker := ticker, axis_len := none }

/-- Model of `<ReverseTicker<T> as Ticker>::layout` (ticker.rs). -/
def ReverseTicker.layout {σ : Type} (ops : TickerOps σ) (r : ReverseTicker σ)
    (axis_len : ℚ) : ReverseTicker σ :=
  { ticker := ops.layoutF r.ticker axis_len, axis_len := some axis_len }

/-- Model of `<ReverseTicker<T> as Ticker>::len` (ticker.rs): delegates. -/
def ReverseTicker.len {σ : Type} (ops : TickerOps σ) (r : ReverseTicker σ) :
    Except String ℕ :=
  ops.lenF r.ticker

/-- Model of `<ReverseTicker<T> as Ticker>::get` (ticker.rs):
`self.ticker.get(idx)?` first (propagating `None` and inner panics), then
`self.axis_len.expect("format not called") - tick.pos` (the `expect` panic
is the `Except.error`; subtracting a NaN `pos` stays NaN). -/
def ReverseTicker.get {σ : Type} (ops : TickerOps σ) (r : ReverseTicker σ)
    (idx : ℕ) : Except String (Option Tick) :=
  match ops.getF r.ticker idx with
  | .error msg => .error msg
  | .ok none => .ok none
  | .ok (some tick) =>
    match r.axis_len with
    | none => .error "format not called"
    | some axis_len =>
      .ok (some { label := tick.label, pos := tick.pos.map (fun p => axis_len - p) })

/-- The `Ticker` operations of `ReverseTicker<T>`, given those of `T`. -/
def reverseOps {σ : Type} (ops : TickerOps σ) : TickerOps (ReverseTicker σ) :=
  { layoutF := ReverseTicker.layout ops
    lenF := ReverseTicker.len ops
    getF := ReverseTicker.get ops }

/-- The `Ticker` operations of `IntervalTicker`. -/
def intervalTickerOps : TickerOps IntervalTicker :=
  { layoutF := IntervalTicker.layout
    lenF := IntervalTicker.len
    getF := IntervalTicker.get }

/-! ## `sequence.rs`: sequences and the two discrete placement tickers -/

/-- Interface of the `Sequence` trait (sequence.rs) over a state type `σ`
with item type `α`; `display` is the `Display` impl used for labels. -/
structure SeqOps (σ α : Type) where
  len : σ → ℕ
  get : σ → ℕ → Option α
  display : α → String

/-- Model of `struct Numeric { interval: Interval, step: f64 }` (sequence.rs). -/
structure Numeric where
  interval : Interval
  step : ℚ
deriving DecidableEq

/-- Model of `Numeric::from_interval_step` (sequence.rs): the
`assert!(step.is_finite() && step > 0.)` panic is the `none` result
(finiteness is automatic for `ℚ`). -/
def Numeric.from_interval_step (interval : Interval) (step : ℚ) : Option Numeric :=
  if 0 < step then some { interval := interval, step := step } else none

/-- Model of `<Numeric as Sequence>::len` (sequence.rs):
`((max - min) / step).floor() as usize`. -/
def Numeric.len (n : Numeric) : ℕ :=
  (⌊(n.interval.max - n.interval.min) / n.step⌋).toNat

/-- Model of `<Numeric as Sequence>::get` (sequence.rs). -/
def Numeric.get (n : Numeric) (idx : ℕ) : Option ℚ :=
  let val := n.interval.min + (idx : ℚ) * n.step
  if n.interval.max < val then none else some val

/-- Model of `struct SpaceAroundTicker<S>` (sequence.rs). -/
structure SpaceAroundTicker (σ : Type) where
  sequence : σ
  gap : Option ℚ
deriving DecidableEq

/-- Model of `SpaceAroundTicker::new` (sequence.rs). -/
def SpaceAroundTicker.new {σ : Type} (sequence : σ) : SpaceAroundTicker σ :=
  { sequence := sequence, gap := none }

/-- Model of `<SpaceAroundTicker<S> as Ticker>::layout` (sequence.rs):
`gap = axis_len / len`.  (For `len = 0` the f64 division gives `±∞`/NaN
while `ℚ` gives `0`; the value is unobservable since `get` then always
returns `none`.) -/
def SpaceAroundTicker.layout {σ α : Type} (ops : SeqOps σ α)
    (t : SpaceAroundTicker σ) (axis_len : ℚ) : SpaceAroundTicker σ :=
  { t with gap := some (axis_len / (ops.len t.sequence : ℚ)) }

/-- Model of `<SpaceAroundTicker<S> as Ticker>::len` (sequence.rs): the
sequence length, with no dependence on `layout` (hence no panic path). -/
def SpaceAroundTicker.len {σ α : Type} (ops : SeqOps σ α)
    (t : SpaceAroundTicker σ) : Except String ℕ :=
  .ok (ops.len t.sequence)

/-- Model of `<SpaceAroundTicker<S> as Ticker>::get` (sequence.rs):
`self.sequence.get(idx)?` first, then `self.gap.unwrap()` (panic before
`layout`). -/
def SpaceAroundTicker.get {σ α : Type} (ops : SeqOps σ α)
    (t : SpaceAroundTicker σ) (idx : ℕ) : Except String (Option Tick) :=
  match ops.get t.sequence idx with
  | none => .ok none
  | some itm =>
    match t.gap with
    | none => .error "called unwrap on None"
    | some gap =>
      .ok (some { pos := some (((idx : ℚ) + 1/2) * gap), label := ops.display itm })

/-- Model of `struct SpaceBetweenTicker<S>` (sequence.rs). -/
structure SpaceBetweenTicker (σ : Type) where
  sequence : σ
  gap : Option ℚ
deriving DecidableEq

/-- Model of `SpaceBetweenTicker::new` (sequence.rs). -/
def SpaceBetweenTicker.new {σ : Type} (sequence : σ) : SpaceBetweenTicker σ :=
  { sequence := sequence, gap := none }

/-- Model of `<SpaceBetweenTicker<S> as Ticker>::layout` (sequence.rs):
`gap = axis_len / (len - 1).max(1)`.  For `len = 0` the `usize`
subtraction `len - 1` overflows, which aborts in debug builds (and wraps
to `2^64 - 1` in release builds); the overflow is modelled as `none`. -/
def SpaceBetweenTicker.layout {σ α : Type} (ops : SeqOps σ α)
    (t : SpaceBetweenTicker σ) (axis_len : ℚ) : Option (SpaceBetweenTicker σ) :=
  match ops.len t.sequence with
  | 0 => none
  | m + 1 => some { t with gap := some (axis_len / ((max m 1 : ℕ) : ℚ)) }

/-- Model of `<SpaceBetweenTicker<S> as Ticker>::len` (sequence.rs). -/
def SpaceBetweenTicker.len {σ α : Type} (ops : SeqOps σ α)
    (t : SpaceBetweenTicker σ) : Except String ℕ :=
  .ok (ops.len t.sequence)

/-- Model of `<SpaceBetweenTicker<S> as Ticker>::get` (sequence.rs). -/
def SpaceBetweenTicker.get {σ α : Type} (ops : SeqOps σ α)
    (t : SpaceBetweenTicker σ) (idx : ℕ) : Except String (Option Tick) :=
  match ops.get t.sequence idx with
  | none => .ok none
  | some itm =>
    match t.gap with
    | none => .error "called unwrap on None"
    | some gap =>
      .ok (some { pos := some ((idx : ℚ) * gap), label := ops.display itm })

/-- The `Sequence` operations of `Categorical<String>` (sequence.rs), whose
state is the backing list; `get` indexes it and `display` is identity. -/
def categoricalStringOps : SeqOps (List String) String :=
  { len := List.length
    get := fun l idx => l.get? idx
    display := id }

/-! ## `axis.rs`: the label-fitting engine

`Axis::fit_labels` only reads the cached label layout sizes
(`label_layouts[idx].size()`), the tick positions (`self.ticks().nth(idx)`)
and the direction, so those are the parameters of the model. -/

/-- Model of `enum Direction { Vertical, Horizontal }` (axis.rs). -/
inductive Direction where
  | Vertical
  | Horizontal
deriving DecidableEq

/-- Model of `piet::kurbo::Size` as used by `layout.size()`. -/
structure Size where
  width : ℚ
  height : ℚ
deriving DecidableEq

/-- The overlap-scan loop shared by both arms of `test_layouts_fit`
(axis.rs): walk the selected indices tracking the trailing edge of the
previously accepted label (`prev_end`, initially `f64::NEG_INFINITY`,
modelled as `none`); fail as soon as a label's leading edge is at or
before it.  `extent` is the label's size along the axis direction
(`height` for a vertical axis, `width` for a horizontal one);
out-of-range indices (which would panic in Rust but never occur at the
call sites) read a zero size. -/
def fitGo (layoutExtents : List ℚ) (tickPos : ℕ → ℚ) :
    Option ℚ → List ℕ → Bool
  | _, [] => true
  | prev_end, idx :: rest =>
    let extent := layoutExtents.getD idx 0
    let overlaps :=
      match prev_end with
      | none => false
      | some pe => decide (tickPos idx - extent * (1/2) ≤ pe)
    if overlaps then false
    else fitGo layoutExtents tickPos (some (tickPos idx + extent * (1/2))) rest

/-- Model of `Axis::test_layouts_fit` (axis.rs), with the label layouts
given by their sizes and the ticker's ticks by their positions. -/
def test_layouts_fit (direction : Direction) (layoutSizes : List Size)
    (tickPos : ℕ → ℚ) (labels_to_draw : List ℕ) : Bool :=
  match direction with
  | .Vertical => fitGo (layoutSizes.map Size.height) tickPos none labels_to_draw
  | .Horizontal => fitGo (layoutSizes.map Size.width) tickPos none labels_to_draw

/-- The candidate subset `(0..len).step_by(step)` built by `fit_labels`
(axis.rs): the indices below `len` divisible by `step`, in order. -/
def strided (len step : ℕ) : List ℕ :=
  (List.range len).filter (fun idx => idx % step == 0)

/-- Model of `Axis::fit_labels` (axis.rs): try `step = 1, 2, …` while
`step <= (label_layouts.len() + 1) / 2`, keep the first stride whose
selection passes `test_layouts_fit`, otherwise clear the selection.  The
imperative loop is modelled as `List.find?` over the same steps in the
same order; the returned list is the final `labels_to_draw`. -/
def fit_labels (direction : Direction) (layoutSizes : List Size)
    (tickPos : ℕ → ℚ) : List ℕ :=
  let n := layoutSizes.length
  match (List.range' 1 ((n + 1) / 2)).find?
      (fun step => test_layouts_fit direction layoutSizes tickPos (strided n step)) with
  | some step => strided n step
  | none => []

/-! ## `interval.rs`: the `±∞` accumulator sentinel (`Default`/`FromIterator`)

The fold that builds an `Interval` from a stream of values starts from the
sentinel `{min: +∞, max: -∞}`, so its fields range over f64 values
including the infinities.  They are modelled by `FExt`. -/

/-- An f64 value as stored in the `Interval` fields during folding: a
finite number, `f64::INFINITY`, or `f64::NEG_INFINITY`. -/
inductive FExt where
  | finite (q : ℚ)
  | pinf
  | ninf
deriving DecidableEq

/-- The f64 `<` comparison on `FExt` (no NaN arises in the fold: `extend_to`
panics on non-finite input values). -/
def FExt.lt : FExt → FExt → Bool
  | .ninf, .ninf => false
  | .ninf, _ => true
  | .finite _, .ninf => false
  | .finite x, .finite y => decide (x < y)
  | .finite _, .pinf => true
  | .pinf, _ => false

/-- `Interval` with the sentinel values representable: used to model
`Default`, `extend_to` and `FromIterator`/`Extend` (interval.rs). -/
structure IntervalE where
  min : FExt
  max : FExt
deriving DecidableEq

/-- Model of `Interval::INVALID`, i.e. `<Interval as Default>::default()`
(interval.rs): `{min: +∞, max: -∞}`. -/
def IntervalE.default : IntervalE := { min := .pinf, max := .ninf }

/-- Model of `Interval::is_valid` (interval.rs) on the extended
representation: `min.is_finite() && max.is_finite() && min < max`. -/
def IntervalE.is_valid (i : IntervalE) : Bool :=
  (match i.min with | .finite _ => true | _ => false) &&
  (match i.max with | .finite _ => true | _ => false) &&
  FExt.lt i.min i.max

/-- Model of `Interval::extend_to` (interval.rs) for a finite value (the
function panics on non-finite input): `if val < self.min { self.min = val }
else if val > self.max { self.max = val }`. -/
def IntervalE.extend_to (i : IntervalE) (val : ℚ) : IntervalE :=
  if FExt.lt (.finite val) i.min then { i with min := .finite val }
  else if FExt.lt i.max (.finite val) then { i with max := .finite val }
  else i

/-- Model of `<Interval as FromIterator<f64>>::from_iter` (interval.rs):
start from `Self::default()` and `extend` over the values (the `Extend`
impl folds `extend_to`). -/
def IntervalE.from_iter (values : List ℚ) : IntervalE :=
  values.foldl IntervalE.extend_to IntervalE.default

/-- The number of multiples of `s` in `[i.min, i.max]`, counted with the
fence-post convention (`⌊max/s⌋ - ⌈min/s⌉ + 1`, which is `≤ 0` when no
multiple lies inside).  This is the abstract quantity the proofs below
relate `count_ticks` to. -/
def mult (i : Interval) (s : ℚ) : ℤ := ⌊i.max / s⌋ - ⌈i.min / s⌉ + 1

/-! ## Lemmas: `calc_next_tick` / `calc_prev_tick` as `ceil` / `floor` -/

theorem calc_prev_tick_eq (v : ℚ) {s : ℚ} (hs : 0 < s) :
    calc_prev_tick v s = s * ⌊v / s⌋ := by
  have hlt : v - s * ⌊v / s⌋ < s := by
    have h1 : v / s - 1 < (⌊v / s⌋ : ℚ) := Int.sub_one_lt_floor _
    have h2 : (v / s - 1) * s < (⌊v / s⌋ : ℚ) * s := by
      exact mul_lt_mul_of_pos_right h1 hs
    have h3 : (v / s) * s = v := div_mul_cancel₀ v hs.ne'
    nlinarith
  have hne : ¬ (v - s * ⌊v / s⌋ = s) := by
    intro h
    exact absurd h (ne_of_lt hlt)
  simp only [calc_prev_tick, rem_euclid]
  rw [if_neg hne]
  ring

theorem calc_next_tick_eq (v : ℚ) {s : ℚ} (hs : 0 < s) :
    calc_next_tick v s = s * ⌈v / s⌉ := by
  simp only [calc_next_tick, rem_euclid]
  by_cases h : v - s * ⌊v / s⌋ = 0
  · rw [if_pos h]
    have hv : v / s = ((⌊v / s⌋ : ℤ) : ℚ) := by
      field_simp
      linarith [h]
    rw [hv, Int.ceil_intCast]
    have := hv
    field_simp at this
    linarith
  · rw [if_neg h]
    have hceil : ⌈v / s⌉ = ⌊v / s⌋ + 1 := by
      have hle : ⌈v / s⌉ ≤ ⌊v / s⌋ + 1 := Int.ceil_le_floor_add_one _
      have hlt : ⌊v / s⌋ < ⌈v / s⌉ := by
        by_contra hc
        push_neg at hc
        have h1 : (v / s : ℚ) ≤ (⌈v / s⌉ : ℚ) := Int.le_ceil _
        have h2 : ((⌈v / s⌉ : ℤ) : ℚ) ≤ ((⌊v / s⌋ : ℤ) : ℚ) := by exact_mod_cast hc
        have h3 : ((⌊v / s⌋ : ℤ) : ℚ) ≤ v / s := Int.floor_le _
        have hv : v / s = ((⌊v / s⌋ : ℤ) : ℚ) := le_antisymm (h1.trans h2) h3
        apply h
        have hvs : v = (v / s) * s := (div_mul_cancel₀ v hs.ne').symm
        rw [hv] at hvs
        linarith [hvs]
      omega
    rw [hceil]
    push_cast
    have : v = (v / s) * s := (div_mul_cancel₀ v hs.ne').symm
    nlinarith [this]

theorem calc_next_tick_ge (v : ℚ) {s : ℚ} (hs : 0 < s) : v ≤ calc_next_tick v s := by
  rw [calc_next_tick_eq v hs]
  have h1 : v / s ≤ (⌈v / s⌉ : ℚ) := Int.le_ceil _
  calc v = (v / s) * s := (div_mul_cancel₀ v hs.ne').symm
    _ ≤ (⌈v / s⌉ : ℚ) * s := mul_le_mul_of_nonneg_right h1 hs.le
    _ = s * ⌈v / s⌉ := by ring

theorem calc_prev_tick_le (v : ℚ) {s : ℚ} (hs : 0 < s) : calc_prev_tick v s ≤ v := by
  rw [calc_prev_tick_eq v hs]
  have h1 : (⌊v / s⌋ : ℚ) ≤ v / s := Int.floor_le _
  calc s * ⌊v / s⌋ = (⌊v / s⌋ : ℚ) * s := by ring
    _ ≤ (v / s) * s := mul_le_mul_of_nonneg_right h1 hs.le
    _ = v := div_mul_cancel₀ v hs.ne'

theorem calc_next_tick_least (v : ℚ) {s : ℚ} (hs : 0 < s) (m : ℤ)
    (hm : v ≤ m * s) : calc_next_tick v s ≤ m * s := by
  rw [calc_next_tick_eq v hs]
  have h1 : v / s ≤ (m : ℚ) := by
    rw [div_le_iff₀ hs]
    exact hm
  have h2 : ⌈v / s⌉ ≤ m := Int.ceil_le.mpr h1
  have h3 : ((⌈v / s⌉ : ℤ) : ℚ) ≤ (m : ℚ) := by exact_mod_cast h2
  nlinarith

theorem calc_prev_tick_greatest (v : ℚ) {s : ℚ} (hs : 0 < s) (m : ℤ)
    (hm : m * s ≤ v) : m * s ≤ calc_prev_tick v s := by
  rw [calc_prev_tick_eq v hs]
  have h1 : (m : ℚ) ≤ v / s := by
    rw [le_div_iff₀ hs]
    exact hm
  have h2 : m ≤ ⌊v / s⌋ := Int.le_floor.mpr h1
  have h3 : (m : ℚ) ≤ ((⌊v / s⌋ : ℤ) : ℚ) := by exact_mod_cast h2
  nlinarith

/-! ## Lemmas: `count_ticks` versus the multiple count `mult` -/

theorem count_ticks_eq (i : Interval) {s : ℚ} (hs : 0 < s) :
    count_ticks i s = (mult i s - 1).toNat + 1 := by
  simp only [count_ticks, mult]
  rw [calc_next_tick_eq i.min hs, calc_prev_tick_eq i.max hs]
  have key : (s * ⌊i.max / s⌋ - s * ⌈i.min / s⌉) / s
      = ((⌊i.max / s⌋ - ⌈i.min / s⌉ : ℤ) : ℚ) := by
    field_simp
    ring
  rw [key, Int.floor_intCast]
  congr 1
  omega

theorem mult_le_of_count_le (i : Interval) {s : ℚ} (hs : 0 < s) {n : ℕ}
    (h : count_ticks i s ≤ n) : mult i s ≤ n := by
  rw [count_ticks_eq i hs] at h
  omega

theorem mult_ge_of_count_gt (i : Interval) {s : ℚ} (hs : 0 < s) {n : ℕ}
    (h : n < count_ticks i s) : (n : ℤ) + 1 ≤ mult i s ∨ n = 0 := by
  rw [count_ticks_eq i hs] at h
  omega

theorem count_le_of_mult_le (i : Interval) {s : ℚ} (hs : 0 < s) {n : ℕ}
    (hn : 1 ≤ n) (h : mult i s ≤ n) : count_ticks i s ≤ n := by
  rw [count_ticks_eq i hs]
  omega

theorem count_gt_of_mult_gt (i : Interval) {s : ℚ} (hs : 0 < s) {n : ℕ}
    (h : (n : ℤ) + 1 ≤ mult i s) : n < count_ticks i s := by
  rw [count_ticks_eq i hs]
  omega

/-- A multiple of `s` inside `[min, max]` witnesses `1 ≤ mult`. -/
theorem mult_pos_of_multiple (i : Interval) {s : ℚ} (hs : 0 < s) (j : ℤ)
    (h1 : i.min ≤ j * s) (h2 : j * s ≤ i.max) : 1 ≤ mult i s := by
  have ha : ⌈i.min / s⌉ ≤ j := Int.ceil_le.mpr (by rw [div_le_iff₀ hs]; exact h1)
  have hb : j ≤ ⌊i.max / s⌋ := Int.le_floor.mpr (by rw [le_div_iff₀ hs]; exact h2)
  simp only [mult]
  omega

/-- Conversely every `j` between the fence posts is a multiple inside the
interval. -/
theorem multiple_of_mem (i : Interval) {s : ℚ} (hs : 0 < s) (j : ℤ)
    (hja : ⌈i.min / s⌉ ≤ j) (hjb : j ≤ ⌊i.max / s⌋) :
    i.min ≤ j * s ∧ j * s ≤ i.max := by
  constructor
  · have h1 : i.min / s ≤ (j : ℚ) := le_trans (Int.le_ceil _) (by exact_mod_cast hja)
    rw [div_le_iff₀ hs] at h1
    exact h1
  · have h1 : (j : ℚ) ≤ i.max / s := le_trans (by exact_mod_cast hjb) (Int.floor_le _)
    rw [le_div_iff₀ hs] at h1
    exact h1

/-- Multiples of `s = m * s'` are multiples of `s'`, so the fence-post count
can only grow when passing from `s` to `s'` (provided it was positive). -/
theorem mult_mono_of_dvd (i : Interval) {s s' : ℚ} (hs' : 0 < s') (m : ℤ)
    (hm : 1 ≤ m) (heq : s = m * s') (hpos : 1 ≤ mult i s) :
    mult i s ≤ mult i s' := by
  have hs : 0 < s := by
    rw [heq]
    have : (0 : ℚ) < (m : ℚ) := by exact_mod_cast hm.trans_lt' zero_lt_one
    positivity
  have hfloor : m * ⌊i.max / s⌋ ≤ ⌊i.max / s'⌋ := by
    apply Int.le_floor.mpr
    have h1 : ((⌊i.max / s⌋ : ℤ) : ℚ) ≤ i.max / s := Int.floor_le _
    have hm0 : (0 : ℚ) ≤ (m : ℚ) := by exact_mod_cast hm.trans_lt' zero_lt_one |>.le
    have h2 : (m : ℚ) * ((⌊i.max / s⌋ : ℤ) : ℚ) ≤ (m : ℚ) * (i.max / s) :=
      mul_le_mul_of_nonneg_left h1 hm0
    have h3 : (m : ℚ) * (i.max / s) = i.max / s' := by
      rw [heq]
      have hmne : (m : ℚ) ≠ 0 := by
        have : (0 : ℚ) < (m : ℚ) := by exact_mod_cast hm.trans_lt' zero_lt_one
        exact this.ne'
      field_simp
      ring
    push_cast
    linarith
  have hceil : ⌈i.min / s'⌉ ≤ m * ⌈i.min / s⌉ := by
    apply Int.ceil_le.mpr
    have h1 : i.min / s ≤ ((⌈i.min / s⌉ : ℤ) : ℚ) := Int.le_ceil _
    have hm0 : (0 : ℚ) ≤ (m : ℚ) := by exact_mod_cast hm.trans_lt' zero_lt_one |>.le
    have h2 : (m : ℚ) * (i.min / s) ≤ (m : ℚ) * ((⌈i.min / s⌉ : ℤ) : ℚ) :=
      mul_le_mul_of_nonneg_left h1 hm0
    have h3 : (m : ℚ) * (i.min / s) = i.min / s' := by
      rw [heq]
      have hmne : (m : ℚ) ≠ 0 := by
        have : (0 : ℚ) < (m : ℚ) := by exact_mod_cast hm.trans_lt' zero_lt_one
        exact this.ne'
      field_simp
      ring
    push_cast
    linarith
  simp only [mult] at hpos ⊢
  nlinarith [hfloor, hceil, hm, hpos]

/-! ## The key property of `pow_10_just_too_many` -/

/-- `pow_10_just_too_many` satisfies its documented contract on every valid
interval and every `num_ticks ≥ 2`: the returned spacing is a power of ten
whose tick count exceeds `num_ticks`, while ten times that spacing fits
within `num_ticks`. -/
theorem pow_10_just_too_many_spec (i : Interval) {n : ℕ} (hv : i.is_valid)
    (hn : 2 ≤ n) :
    0 < pow_10_just_too_many i n ∧
    (∃ k : ℤ, pow_10_just_too_many i n = (10 : ℚ) ^ k) ∧
    n < count_ticks i (pow_10_just_too_many i n) ∧
    count_ticks i (10 * pow_10_just_too_many i n) ≤ n := by
  have hsize : 0 < i.size := sub_pos.mpr hv
  have heq : pow_10_just_too_many i n =
      (if calc_next_tick i.min ((10 : ℚ) ^ Int.log 10 (i.size / ((n - 1 : ℕ) : ℚ)))
          + ((n - 1 : ℕ) : ℚ) * ((10 : ℚ) ^ Int.log 10 (i.size / ((n - 1 : ℕ) : ℚ)))
          < calc_prev_tick i.max ((10 : ℚ) ^ Int.log 10 (i.size / ((n - 1 : ℕ) : ℚ)))
        then (10 : ℚ) ^ Int.log 10 (i.size / ((n - 1 : ℕ) : ℚ))
        else (10 : ℚ) ^ Int.log 10 (i.size / ((n - 1 : ℕ) : ℚ)) * (1 / 10)) := rfl
  set nq : ℚ := ((n - 1 : ℕ) : ℚ) with hnq_def
  have hnq_cast : nq = (n : ℚ) - 1 := by
    rw [hnq_def, Nat.cast_sub (by omega : 1 ≤ n), Nat.cast_one]
  have hnq0 : (0 : ℚ) < nq := by
    rw [hnq_cast]
    have : (2 : ℚ) ≤ (n : ℚ) := by exact_mod_cast hn
    linarith
  have hideal : 0 < i.size / nq := div_pos hsize hnq0
  set k : ℤ := Int.log 10 (i.size / nq) with hk_def
  set p0 : ℚ := (10 : ℚ) ^ k with hp0_def
  have hp0 : 0 < p0 := zpow_pos (by norm_num) k
  have h_lo : p0 ≤ i.size / nq := Int.zpow_log_le_self (by norm_num) hideal
  have h_hi : i.size / nq < (10 : ℚ) ^ (k + 1) := Int.lt_zpow_succ_log_self (by norm_num) _
  have h10 : (10 : ℚ) ^ (k + 1) = 10 * p0 := by
    rw [hp0_def, zpow_add_one₀ (by norm_num : (10 : ℚ) ≠ 0)]
    ring
  have hsize_lo : nq * p0 ≤ i.size := by
    have := (le_div_iff₀ hnq0).mp h_lo
    linarith
  have hsize_hi : i.size < nq * (10 * p0) := by
    have := (div_lt_iff₀ hnq0).mp h_hi
    rw [h10] at this
    linarith
  have hn1 : (1 : ℕ) ≤ n := by omega
  rw [heq]
  split_ifs with hcond
  · -- too few ends lost: the initial power of ten is already "too many"
    refine ⟨hp0, ⟨k, hp0_def⟩, ?_, ?_⟩
    · -- tick count at `p0` exceeds `n`
      rw [calc_next_tick_eq _ hp0, calc_prev_tick_eq _ hp0] at hcond
      have hint : (⌈i.min / p0⌉ : ℚ) + nq < (⌊i.max / p0⌋ : ℚ) := by
        by_contra hc
        push_neg at hc
        have h1 : p0 * (⌊i.max / p0⌋ : ℚ) ≤ p0 * ((⌈i.min / p0⌉ : ℚ) + nq) :=
          mul_le_mul_of_nonneg_left hc hp0.le
        nlinarith
      have hintZ : ⌈i.min / p0⌉ + ((n : ℤ) - 1) < ⌊i.max / p0⌋ := by
        rw [hnq_cast] at hint
        exact_mod_cast hint
      apply count_gt_of_mult_gt i hp0
      simp only [mult]
      omega
    · -- tick count at `10 * p0` stays within `n`
      have hq : 0 < 10 * p0 := by positivity
      have hfl : (⌊i.max / (10 * p0)⌋ : ℚ) ≤ i.max / (10 * p0) := Int.floor_le _
      have hcl : i.min / (10 * p0) ≤ (⌈i.min / (10 * p0)⌉ : ℚ) := Int.le_ceil _
      have hdiv : i.max / (10 * p0) - i.min / (10 * p0) = i.size / (10 * p0) := by
        simp only [Interval.size]
        ring
      have hsz : i.size / (10 * p0) < nq := by
        rw [div_lt_iff₀ hq]
        linarith
      have hZ : ⌊i.max / (10 * p0)⌋ - ⌈i.min / (10 * p0)⌉ < (n : ℤ) - 1 := by
        have h1 : (⌊i.max / (10 * p0)⌋ : ℚ) - (⌈i.min / (10 * p0)⌉ : ℚ) < (n : ℚ) - 1 := by
          rw [hnq_cast] at hsz
          linarith
        exact_mod_cast h1
      apply count_le_of_mult_le i hq hn1
      simp only [mult]
      omega
  · -- go one power of ten down
    have hp' : 0 < p0 * (1 / 10) := by positivity
    refine ⟨hp', ⟨k - 1, ?_⟩, ?_, ?_⟩
    · rw [hp0_def, zpow_sub_one₀ (by norm_num : (10 : ℚ) ≠ 0)]
      norm_num
    · -- tick count at `p0 / 10` exceeds `n`
      have hfl : i.max / (p0 * (1 / 10)) < (⌊i.max / (p0 * (1 / 10))⌋ : ℚ) + 1 :=
        Int.lt_floor_add_one _
      have hcl : (⌈i.min / (p0 * (1 / 10))⌉ : ℚ) < i.min / (p0 * (1 / 10)) + 1 :=
        Int.ceil_lt_add_one _
      have hdiv : i.max / (p0 * (1 / 10)) - i.min / (p0 * (1 / 10))
          = i.size / (p0 * (1 / 10)) := by
        simp only [Interval.size]
        ring
      have hsz : 10 * nq ≤ i.size / (p0 * (1 / 10)) := by
        rw [le_div_iff₀ hp']
        nlinarith
      have hQ : 10 * nq - 2 < (⌊i.max / (p0 * (1 / 10))⌋ : ℚ)
          - (⌈i.min / (p0 * (1 / 10))⌉ : ℚ) := by
        linarith
      have hZ : 10 * ((n : ℤ) - 1) - 2 < ⌊i.max / (p0 * (1 / 10))⌋
          - ⌈i.min / (p0 * (1 / 10))⌉ := by
        rw [hnq_cast] at hQ
        exact_mod_cast hQ
      apply count_gt_of_mult_gt i hp'
      simp only [mult]
      omega
    · -- tick count at `10 * (p0 / 10) = p0` stays within `n`
      have h1010 : 10 * (p0 * (1 / 10)) = p0 := by ring
      rw [h1010]
      push_neg at hcond
      rw [calc_next_tick_eq _ hp0, calc_prev_tick_eq _ hp0] at hcond
      have hint : (⌊i.max / p0⌋ : ℚ) ≤ (⌈i.min / p0⌉ : ℚ) + nq := by
        by_contra hc
        push_neg at hc
        have h1 : p0 * ((⌈i.min / p0⌉ : ℚ) + nq) ≤ p0 * (⌊i.max / p0⌋ : ℚ) := by
          nlinarith
        nlinarith
      have hintZ : ⌊i.max / p0⌋ ≤ ⌈i.min / p0⌉ + ((n : ℤ) - 1) := by
        rw [hnq_cast] at hint
        exact_mod_cast hint
      apply count_le_of_mult_le i hp0 hn1
      simp only [mult]
      omega

/-! ## The full contract of `calc_tick_spacing` -/

/-- Helper: pick an even integer in `{a, a + 1}`. -/
theorem even_in_pair (a : ℤ) : ∃ j : ℤ, a ≤ j ∧ j ≤ a + 1 ∧ ∃ t : ℤ, j = 2 * t := by
  rcases Int.even_or_odd a with ⟨t, ht⟩ | ⟨t, ht⟩
  · exact ⟨a, le_refl a, by omega, t, by omega⟩
  · exact ⟨a + 1, by omega, le_refl _, t + 1, by omega⟩

/-- Helper: pick a multiple of `5` among five consecutive integers. -/
theorem mult_of_five_in_run (a : ℤ) :
    ∃ j : ℤ, a ≤ j ∧ j ≤ a + 4 ∧ ∃ t : ℤ, j = 5 * t := by
  refine ⟨a + (-a) % 5, by omega, by omega, (a + (-a) % 5) / 5, by omega⟩

/-- The full contract of `calc_tick_spacing` on a valid interval with
`target_count ≥ 2`: it succeeds (no NaN), the spacing is positive and of
the form `{1, 2, 5} × 10^k`, its tick count is within `target_count`
while one-tenth of it would overshoot, and at least one multiple of the
spacing lies inside the interval. -/
theorem calc_tick_spacing_spec (i : Interval) {n : ℕ} (hv : i.is_valid)
    (hn : 2 ≤ n) :
    ∃ s : ℚ, calc_tick_spacing i n = some s ∧ 0 < s ∧
      (∃ k : ℤ, s = (10 : ℚ) ^ k ∨ s = 2 * (10 : ℚ) ^ k ∨ s = 5 * (10 : ℚ) ^ k) ∧
      count_ticks i s ≤ n ∧
      n < count_ticks i (s / 10) ∧
      1 ≤ mult i s := by
  have hsize : 0 < i.size := sub_pos.mpr hv
  obtain ⟨hp, ⟨k, hk⟩, hcnt_gt, hcnt10_le⟩ := pow_10_just_too_many_spec i hv hn
  set p : ℚ := pow_10_just_too_many i n with hp_def
  have hguard : ¬ (n ≤ 1 ∨ i.size = 0) := by
    push_neg
    exact ⟨by omega, hsize.ne'⟩
  have heq : calc_tick_spacing i n =
      if n ≤ 1 ∨ i.size = 0 then none
      else if count_ticks i (2 * p) ≤ n then some (2 * p)
      else if count_ticks i (5 * p) ≤ n then some (5 * p)
      else some (p * 10) := rfl
  rw [heq, if_neg hguard]
  have hmultp : (n : ℤ) + 1 ≤ mult i p := by
    rcases mult_ge_of_count_gt i hp hcnt_gt with h | h
    · exact h
    · omega
  have hmultp1 : 1 ≤ mult i p := by
    have : (2 : ℤ) ≤ (n : ℤ) := by exact_mod_cast hn
    omega
  by_cases h2 : count_ticks i (2 * p) ≤ n
  · -- spacing `2 * p`
    rw [if_pos h2]
    have hs : 0 < 2 * p := by positivity
    refine ⟨2 * p, rfl, hs, ⟨k, Or.inr (Or.inl (by rw [hk]))⟩, h2, ?_, ?_⟩
    · -- a tenth of `2p` is `p / 5`, which `p` is a multiple of
      have hs' : 0 < 2 * p / 10 := by positivity
      apply count_gt_of_mult_gt i hs'
      have hmono : mult i p ≤ mult i (2 * p / 10) := by
        apply mult_mono_of_dvd i hs' 5 (by norm_num) (by ring) hmultp1
      omega
    · -- `mult i p ≥ 3` gives two consecutive multiples of `p`, one even
      have hab : ⌈i.min / p⌉ + 2 ≤ ⌊i.max / p⌋ := by
        simp only [mult] at hmultp
        have : (2 : ℤ) ≤ (n : ℤ) := by exact_mod_cast hn
        omega
      obtain ⟨j, hja, hjb, t, hjt⟩ := even_in_pair ⌈i.min / p⌉
      obtain ⟨hj1, hj2⟩ := multiple_of_mem i hp j hja (by omega)
      have hjp : (t : ℚ) * (2 * p) = (j : ℚ) * p := by
        rw [hjt]
        push_cast
        ring
      apply mult_pos_of_multiple i hs t
      · linarith [hj1, hjp]
      · linarith [hj2, hjp]
  · rw [if_neg h2]
    push_neg at h2
    have hs2 : 0 < 2 * p := by positivity
    have hmult2 : (n : ℤ) + 1 ≤ mult i (2 * p) := by
      rcases mult_ge_of_count_gt i hs2 h2 with h | h
      · exact h
      · omega
    by_cases h5 : count_ticks i (5 * p) ≤ n
    · -- spacing `5 * p`
      rw [if_pos h5]
      have hs : 0 < 5 * p := by positivity
      refine ⟨5 * p, rfl, hs, ⟨k, Or.inr (Or.inr (by rw [hk]))⟩, h5, ?_, ?_⟩
      · -- a tenth of `5p` is `p / 2`, which `p` is a multiple of
        have hs' : 0 < 5 * p / 10 := by positivity
        apply count_gt_of_mult_gt i hs'
        have hmono : mult i p ≤ mult i (5 * p / 10) := by
          apply mult_mono_of_dvd i hs' 2 (by norm_num) (by ring) hmultp1
        omega
      · -- `mult i (2p) ≥ 3` gives five consecutive multiples of `p`,
        -- one of them a multiple of `5p`
        have hab : ⌈i.min / (2 * p)⌉ + 2 ≤ ⌊i.max / (2 * p)⌋ := by
          simp only [mult] at hmult2
          have : (2 : ℤ) ≤ (n : ℤ) := by exact_mod_cast hn
          omega
        set a2 : ℤ := ⌈i.min / (2 * p)⌉ with ha2
        obtain ⟨hlo, _⟩ := multiple_of_mem i hs2 a2 (le_refl _) (by omega)
        obtain ⟨_, hhi⟩ := multiple_of_mem i hs2 (a2 + 2) (by omega) (by omega)
        obtain ⟨j, hja, hjb, t, hjt⟩ := mult_of_five_in_run (2 * a2)
        have hjp : (t : ℚ) * (5 * p) = (j : ℚ) * p := by
          rw [hjt]
          push_cast
          ring
        have hlow : ((a2 : ℚ)) * (2 * p) ≤ (j : ℚ) * p := by
          have hja2 : ((2 * a2 : ℤ) : ℚ) ≤ (j : ℚ) := by exact_mod_cast hja
          push_cast at hja2
          nlinarith
        have hhigh : (j : ℚ) * p ≤ ((a2 + 2 : ℤ) : ℚ) * (2 * p) := by
          have hjb2 : (j : ℚ) ≤ ((2 * a2 + 4 : ℤ) : ℚ) := by exact_mod_cast hjb
          push_cast at hjb2 ⊢
          nlinarith
        apply mult_pos_of_multiple i hs t
        · linarith [hlo, hlow, hjp]
        · push_cast at hhi hhigh
          linarith [hhi, hhigh, hjp]
    · -- spacing `p * 10`
      rw [if_neg h5]
      push_neg at h5
      have hs5 : 0 < 5 * p := by positivity
      have hmult5 : (n : ℤ) + 1 ≤ mult i (5 * p) := by
        rcases mult_ge_of_count_gt i hs5 h5 with h | h
        · exact h
        · omega
      have hs : 0 < p * 10 := by positivity
      refine ⟨p * 10, rfl, hs, ⟨k + 1, Or.inl ?_⟩, ?_, ?_, ?_⟩
      · rw [zpow_add_one₀ (by norm_num : (10 : ℚ) ≠ 0), hk]
      · rw [show p * 10 = 10 * p by ring]
        exact hcnt10_le
      · -- a tenth of `p * 10` is `p` itself
        have hs' : 0 < p * 10 / 10 := by positivity
        apply count_gt_of_mult_gt i hs'
        have hmono : mult i p ≤ mult i (p * 10 / 10) := by
          apply mult_mono_of_dvd i hs' 1 (by norm_num) (by ring) hmultp1
        omega
      · -- `mult i (5p) ≥ 3` gives two consecutive multiples of `5p`, one even
        have hab : ⌈i.min / (5 * p)⌉ + 2 ≤ ⌊i.max / (5 * p)⌋ := by
          simp only [mult] at hmult5
          have : (2 : ℤ) ≤ (n : ℤ) := by exact_mod_cast hn
          omega
        obtain ⟨j, hja, hjb, t, hjt⟩ := even_in_pair ⌈i.min / (5 * p)⌉
        obtain ⟨hj1, hj2⟩ := multiple_of_mem i hs5 j hja (by omega)
        have hjp : (t : ℚ) * (p * 10) = (j : ℚ) * (5 * p) := by
          rw [hjt]
          push_cast
          ring
        apply mult_pos_of_multiple i hs t
        · linarith [hj1, hjp]
        · linarith [hj2, hjp]

/-- Floor form of the tick count computed by `IntervalTicker::layout`:
`⌊(max - start) / step⌋` equals the fence-post difference. -/
theorem layout_floor_eq (i : Interval) {s : ℚ} (hs : 0 < s) :
    ⌊(i.max - calc_next_tick i.min s) / s⌋ = ⌊i.max / s⌋ - ⌈i.min / s⌉ := by
  rw [calc_next_tick_eq _ hs]
  have h : (i.max - s * ⌈i.min / s⌉) / s = i.max / s - ((⌈i.min / s⌉ : ℤ) : ℚ) := by
    field_simp
  rw [h, Int.floor_sub_int]

/-! ## Claim theorems -/

/-- C1: For every valid `Interval` and every `target_count ≥ 2`,
`calc_tick_spacing` returns (without NaN) a spacing of the form
`{1, 2, 5} × 10^k`, whose tick count (as computed by `count_ticks`, the
fence-post count between the first multiple ≥ min and the last multiple
≤ max) is at most `target_count`, while the tick count at one tenth of
that spacing exceeds `target_count`. -/
theorem calc_tick_spacing_nice (i : Interval) (n : ℕ) (hv : i.is_valid)
    (hn : 2 ≤ n) :
    ∃ s : ℚ, calc_tick_spacing i n = some s ∧
      (∃ k : ℤ, s = (10 : ℚ) ^ k ∨ s = 2 * (10 : ℚ) ^ k ∨ s = 5 * (10 : ℚ) ^ k) ∧
      count_ticks i s ≤ n ∧
      n < count_ticks i (s / 10) := by
  obtain ⟨s, h1, _, h3, h4, h5, _⟩ := calc_tick_spacing_spec i hv hn
  exact ⟨s, h1, h3, h4, h5⟩

/-- Witness for C1 at the interval `[0, 100]` with `target_count = 10`. -/
theorem calc_tick_spacing_nice_witness :
    Interval.is_valid ⟨0, 100⟩ ∧ 2 ≤ 10 ∧
      (∃ s : ℚ, calc_tick_spacing ⟨0, 100⟩ 10 = some s ∧
        (∃ k : ℤ, s = (10 : ℚ) ^ k ∨ s = 2 * (10 : ℚ) ^ k ∨ s = 5 * (10 : ℚ) ^ k) ∧
        count_ticks ⟨0, 100⟩ s ≤ 10 ∧
        10 < count_ticks ⟨0, 100⟩ (s / 10)) :=
  ⟨by norm_num [Interval.is_valid], by norm_num,
    calc_tick_spacing_nice ⟨0, 100⟩ 10 (by norm_num [Interval.is_valid]) (by norm_num)⟩

/-- C4: for every `v` and every spacing `s > 0`, `calc_next_tick v s` is the
least multiple of `s` at or above `v` and `calc_prev_tick v s` the greatest
multiple of `s` at or below `v`; concretely `calc_prev_tick 1 2 = 0`,
`calc_next_tick 1 2 = 2`, and `calc_prev_tick (-0.5) 1 = -1`. -/
theorem next_prev_tick_spec (v s : ℚ) (hs : 0 < s) :
    v ≤ calc_next_tick v s ∧ calc_prev_tick v s ≤ v ∧
    (∃ a : ℤ, calc_next_tick v s = (a : ℚ) * s) ∧
    (∃ b : ℤ, calc_prev_tick v s = (b : ℚ) * s) ∧
    (∀ m : ℤ, v ≤ (m : ℚ) * s → calc_next_tick v s ≤ (m : ℚ) * s) ∧
    (∀ m : ℤ, (m : ℚ) * s ≤ v → (m : ℚ) * s ≤ calc_prev_tick v s) ∧
    calc_prev_tick 1 2 = 0 ∧ calc_next_tick 1 2 = 2 ∧
    calc_prev_tick (-(1 / 2)) 1 = -1 := by
  refine ⟨calc_next_tick_ge v hs, calc_prev_tick_le v hs, ?_, ?_, ?_, ?_, ?_, ?_, ?_⟩
  · exact ⟨⌈v / s⌉, by rw [calc_next_tick_eq v hs]; ring⟩
  · exact ⟨⌊v / s⌋, by rw [calc_prev_tick_eq v hs]; ring⟩
  · intro m hm
    exact calc_next_tick_least v hs m hm
  · intro m hm
    exact calc_prev_tick_greatest v hs m hm
  · rw [calc_prev_tick_eq 1 (by norm_num : (0 : ℚ) < 2)]
    norm_num
  · rw [calc_next_tick_eq 1 (by norm_num : (0 : ℚ) < 2)]
    norm_num [Int.ceil_eq_iff]
  · rw [calc_prev_tick_eq (-(1 / 2)) (by norm_num : (0 : ℚ) < 1)]
    norm_num

/-- Witness for C4 at `v = 1`, `s = 2`. -/
theorem next_prev_tick_spec_witness :
    (0 : ℚ) < 2 ∧
      ((1 : ℚ) ≤ calc_next_tick 1 2 ∧ calc_prev_tick 1 2 ≤ 1 ∧
      (∃ a : ℤ, calc_next_tick 1 2 = (a : ℚ) * 2) ∧
      (∃ b : ℤ, calc_prev_tick 1 2 = (b : ℚ) * 2) ∧
      (∀ m : ℤ, (1 : ℚ) ≤ (m : ℚ) * 2 → calc_next_tick 1 2 ≤ (m : ℚ) * 2) ∧
      (∀ m : ℤ, (m : ℚ) * 2 ≤ 1 → (m : ℚ) * 2 ≤ calc_prev_tick 1 2) ∧
      calc_prev_tick 1 2 = 0 ∧ calc_next_tick 1 2 = 2 ∧
      calc_prev_tick (-(1 / 2)) 1 = -1) :=
  ⟨by norm_num, next_prev_tick_spec 1 2 (by norm_num)⟩

/-- C9: `calc_tick_spacing` returns NaN (modelled `none`) exactly on the
degenerate inputs `target_count ≤ 1` or `size = 0`; on every valid
interval with `target_count ≥ 2` it returns a positive (finite) spacing. -/
theorem calc_tick_spacing_nan_policy (i : Interval) (n : ℕ) :
    ((n ≤ 1 ∨ i.size = 0) → calc_tick_spacing i n = none) ∧
    (i.is_valid → 2 ≤ n → ∃ s, calc_tick_spacing i n = some s ∧ 0 < s) := by
  constructor
  · intro h
    simp only [calc_tick_spacing, if_pos h]
  · intro hv hn
    obtain ⟨s, h1, h2, _⟩ := calc_tick_spacing_spec i hv hn
    exact ⟨s, h1, h2⟩

/-- Witness for C9: the zero-size interval `[5, 5]` yields NaN for any
target count, while `[0, 100]` with target `10` yields a positive spacing. -/
theorem calc_tick_spacing_nan_policy_witness :
    calc_tick_spacing ⟨5, 5⟩ 10 = none ∧
      (∃ s, calc_tick_spacing ⟨0, 100⟩ 10 = some s ∧ 0 < s) :=
  ⟨(calc_tick_spacing_nan_policy ⟨5, 5⟩ 10).1 (Or.inr (by norm_num [Interval.size])),
    (calc_tick_spacing_nan_policy ⟨0, 100⟩ 10).2 (by norm_num [Interval.is_valid])
      (by norm_num)⟩

/-- C3 (counterexample): on the valid interval `[0, 1]` with axis length
`10`, the derived `max_count` is `0`, so the spacing is NaN and the single
tick produced by `get 0` has a NaN position — not a value in `[0, 10]`. -/
theorem interval_ticker_pos_counterexample :
    ((IntervalTicker.new ⟨0, 1⟩).layout 10).get 0
      = .ok (some { pos := none, label := "NaN" }) ∧
    ¬ posInRange { pos := none, label := "NaN" } 10 := by
  constructor
  · have hmc : ((⌊(10 : ℚ) / (20 * 3)⌋).toNat) = 0 := by norm_num
    have hstep : calc_tick_spacing (⟨0, 1⟩ : Interval) ((⌊(10 : ℚ) / (20 * 3)⌋).toNat)
        = none := by
      rw [hmc]
      simp [calc_tick_spacing]
    simp only [IntervalTicker.layout, IntervalTicker.new, IntervalTicker.get, hstep,
      Option.map_none']
    norm_num
  · rintro ⟨p, hp, -⟩
    simp at hp

/-- C3 (amended): for a valid interval and axis length at least `120` (so
that the derived `max_count` is at least `2` and the spacing is a real
number), every tick produced after `layout` has its position inside
`[0, axis_len]`. -/
theorem interval_ticker_pos_in_range (i : Interval) (axis_len : ℚ) (idx : ℕ)
    (tk : Tick) (hv : i.is_valid) (hlen : 120 ≤ axis_len)
    (hget : ((IntervalTicker.new i).layout axis_len).get idx = .ok (some tk)) :
    posInRange tk axis_len := by
  have hsize : 0 < i.size := sub_pos.mpr hv
  have hax : (0 : ℚ) < axis_len := by linarith
  have hmc2 : 2 ≤ (⌊axis_len / (20 * 3)⌋).toNat := by
    have h2 : (2 : ℚ) ≤ axis_len / (20 * 3) := by
      rw [le_div_iff₀ (by norm_num : (0 : ℚ) < 20 * 3)]
      linarith
    have h3 : (2 : ℤ) ≤ ⌊axis_len / (20 * 3)⌋ := Int.le_floor.mpr (by exact_mod_cast h2)
    omega
  obtain ⟨s, hs_eq, hs_pos, _, _, _, hmult1⟩ :=
    calc_tick_spacing_spec i hv hmc2
  simp only [IntervalTicker.layout, IntervalTicker.new, IntervalTicker.get, hs_eq,
    Option.map_some'] at hget
  set start : ℚ := calc_next_tick i.min s with hstart_def
  set cnt : ℕ := (⌊(i.max - start) / s⌋).toNat + 1 with hcnt_def
  by_cases hidx : idx ≥ cnt
  · rw [if_pos hidx] at hget
    exact absurd hget (by simp)
  · rw [if_neg hidx] at hget
    have htk : some ((((idx : ℚ) * s + start) * (axis_len / i.size)
        + -i.min * (axis_len / i.size) : ℚ)) = tk.pos := by
      simp only [Except.ok.injEq, Option.some.injEq] at hget
      rw [← hget]
    set val : ℚ := (idx : ℚ) * s + start with hval_def
    have hstart_ge : i.min ≤ start := calc_next_tick_ge i.min hs_pos
    have hval_ge : i.min ≤ val := by
      have : (0 : ℚ) ≤ (idx : ℚ) * s := by positivity
      rw [hval_def]
      linarith
    have hd : ⌊(i.max - start) / s⌋ = ⌊i.max / s⌋ - ⌈i.min / s⌉ :=
      layout_floor_eq i hs_pos
    have hd0 : 0 ≤ ⌊i.max / s⌋ - ⌈i.min / s⌉ := by
      simp only [mult] at hmult1
      omega
    have hidx_le : (idx : ℤ) ≤ ⌊(i.max - start) / s⌋ := by
      push_neg at hidx
      rw [hcnt_def] at hidx
      rw [hd]
      omega
    have hval_le : val ≤ i.max := by
      have h1 : ((idx : ℤ) : ℚ) ≤ ((⌊(i.max - start) / s⌋ : ℤ) : ℚ) := by
        exact_mod_cast hidx_le
      have h2 : ((⌊(i.max - start) / s⌋ : ℤ) : ℚ) ≤ (i.max - start) / s :=
        Int.floor_le _
      have h3 : (idx : ℚ) ≤ (i.max - start) / s := by
        push_cast at h1
        linarith
      rw [le_div_iff₀ hs_pos] at h3
      rw [hval_def]
      linarith
    have hscale : (0 : ℚ) < axis_len / i.size := by positivity
    refine ⟨val * (axis_len / i.size) + -i.min * (axis_len / i.size), htk.symm ▸ rfl, ?_, ?_⟩
    · have h1 : val * (axis_len / i.size) + -i.min * (axis_len / i.size)
          = (val - i.min) * (axis_len / i.size) := by ring
      rw [h1]
      have h2 : (0 : ℚ) ≤ val - i.min := by linarith
      positivity
    · have h1 : val * (axis_len / i.size) + -i.min * (axis_len / i.size)
          = (val - i.min) * (axis_len / i.size) := by ring
      rw [h1]
      have h2 : val - i.min ≤ i.size := by
        simp only [Interval.size]
        linarith
      have h3 : (val - i.min) * (axis_len / i.size) ≤ i.size * (axis_len / i.size) :=
        mul_le_mul_of_nonneg_right h2 hscale.le
      have h4 : i.size * (axis_len / i.size) = axis_len := by
        field_simp
      linarith

/-- Uniqueness characterisation used to evaluate `Int.log 10` on concrete
rationals. -/
theorem int_log_eq {r : ℚ} (k : ℤ) (hr : 0 < r) (h1 : (10 : ℚ) ^ k ≤ r)
    (h2 : r < (10 : ℚ) ^ (k + 1)) : Int.log 10 r = k := by
  have ha := (Int.zpow_le_iff_le_log (by norm_num : 1 < 10) hr).mp h1
  have hb := (Int.lt_zpow_iff_log_lt (by norm_num : 1 < 10) hr).mp h2
  omega

/-- Concrete evaluation: `pow_10_just_too_many([0, 100], 10) = 10`. -/
theorem pow_10_just_too_many_eval :
    pow_10_just_too_many ⟨0, 100⟩ 10 = 10 := by
  have hlog : Int.log 10 (Interval.size ⟨0, 100⟩ / ((10 - 1 : ℕ) : ℚ)) = 1 := by
    apply int_log_eq 1 (by norm_num [Interval.size]) <;>
      norm_num [Interval.size]
  have heq : pow_10_just_too_many ⟨0, 100⟩ 10 =
      (if calc_next_tick (Interval.min ⟨0, 100⟩)
            ((10 : ℚ) ^ Int.log 10 (Interval.size ⟨0, 100⟩ / ((10 - 1 : ℕ) : ℚ)))
          + ((10 - 1 : ℕ) : ℚ)
            * ((10 : ℚ) ^ Int.log 10 (Interval.size ⟨0, 100⟩ / ((10 - 1 : ℕ) : ℚ)))
          < calc_prev_tick (Interval.max ⟨0, 100⟩)
            ((10 : ℚ) ^ Int.log 10 (Interval.size ⟨0, 100⟩ / ((10 - 1 : ℕ) : ℚ)))
        then (10 : ℚ) ^ Int.log 10 (Interval.size ⟨0, 100⟩ / ((10 - 1 : ℕ) : ℚ))
        else (10 : ℚ) ^ Int.log 10 (Interval.size ⟨0, 100⟩ / ((10 - 1 : ℕ) : ℚ))
          * (1 / 10)) := rfl
  rw [heq, hlog]
  have hnext : calc_next_tick (Interval.min ⟨0, 100⟩) ((10 : ℚ) ^ (1 : ℤ)) = 0 := by
    rw [show ((10 : ℚ) ^ (1 : ℤ)) = 10 by norm_num]
    rw [calc_next_tick_eq _ (by norm_num : (0 : ℚ) < 10)]
    norm_num [Int.ceil_eq_iff]
  have hprev : calc_prev_tick (Interval.max ⟨0, 100⟩) ((10 : ℚ) ^ (1 : ℤ)) = 100 := by
    rw [show ((10 : ℚ) ^ (1 : ℤ)) = 10 by norm_num]
    rw [calc_prev_tick_eq _ (by norm_num : (0 : ℚ) < 10)]
    norm_num
  rw [hnext, hprev, if_pos (by norm_num)]
  norm_num

/-- Concrete evaluation: `calc_tick_spacing([0, 100], 10) = 20`. -/
theorem calc_tick_spacing_eval :
    calc_tick_spacing ⟨0, 100⟩ 10 = some 20 := by
  have hcnt : count_ticks ⟨0, 100⟩ (2 * pow_10_just_too_many ⟨0, 100⟩ 10) ≤ 10 := by
    rw [pow_10_just_too_many_eval]
    rw [count_ticks_eq _ (by norm_num : (0 : ℚ) < 2 * 10)]
    norm_num [mult, Interval.min, Interval.max, Int.ceil_eq_iff]
    omega
  have heq : calc_tick_spacing ⟨0, 100⟩ 10 =
      (if (10 : ℕ) ≤ 1 ∨ Interval.size ⟨0, 100⟩ = 0 then none
        else if count_ticks ⟨0, 100⟩ (2 * pow_10_just_too_many ⟨0, 100⟩ 10) ≤ 10
          then some (2 * pow_10_just_too_many ⟨0, 100⟩ 10)
        else if count_ticks ⟨0, 100⟩ (5 * pow_10_just_too_many ⟨0, 100⟩ 10) ≤ 10
          then some (5 * pow_10_just_too_many ⟨0, 100⟩ 10)
        else some (pow_10_just_too_many ⟨0, 100⟩ 10 * 10)) := rfl
  rw [heq, if_neg (by norm_num [Interval.size]), if_pos hcnt, pow_10_just_too_many_eval]
  norm_num

/-- Witness for C3 (amended) at the interval `[0, 100]`, axis length `600`,
index `0`: the tick sits at position `0 ∈ [0, 600]`. -/
theorem interval_ticker_pos_in_range_witness :
    Interval.is_valid ⟨0, 100⟩ ∧ (120 : ℚ) ≤ 600 ∧
      ((IntervalTicker.new ⟨0, 100⟩).layout 600).get 0
        = .ok (some { pos := some 0, label := toString (0 : ℚ) }) ∧
      posInRange { pos := some 0, label := toString (0 : ℚ) } 600 := by
  have hmc : ((⌊(600 : ℚ) / (20 * 3)⌋).toNat) = 10 := by
    norm_num
    omega
  have hstep : calc_tick_spacing (⟨0, 100⟩ : Interval)
      ((⌊(600 : ℚ) / (20 * 3)⌋).toNat) = some 20 := by
    rw [hmc]
    exact calc_tick_spacing_eval
  have hnext : calc_next_tick (Interval.min ⟨0, 100⟩) 20 = 0 := by
    rw [calc_next_tick_eq _ (by norm_num : (0 : ℚ) < 20)]
    norm_num [Int.ceil_eq_iff]
  have hget : ((IntervalTicker.new ⟨0, 100⟩).layout 600).get 0
      = .ok (some { pos := some 0, label := toString (0 : ℚ) }) := by
    simp only [IntervalTicker.layout, IntervalTicker.new, IntervalTicker.get, hstep,
      Option.map_some', hnext]
    norm_num [Interval.size]
  refine ⟨by norm_num [Interval.is_valid], by norm_num, hget, ?_⟩
  exact interval_ticker_pos_in_range ⟨0, 100⟩ 600 0 _
    (by norm_num [Interval.is_valid]) (by norm_num) hget

/-- C6: after `layout(axis_len)`, `ReverseTicker::get` returns the inner
ticker's tick with its position reflected about the axis length and its
label unchanged; `len` delegates unchanged; and wrapping twice and laying
out with the same axis length restores the inner ticker's ticks exactly
(in the exact-rational model the round trip is exact). -/
theorem reverse_ticker_spec {σ : Type} (ops : TickerOps σ) (s0 : σ)
    (axis_len : ℚ) (idx : ℕ) :
    (ReverseTicker.get ops (ReverseTicker.layout ops (ReverseTicker.new s0) axis_len) idx
      = (ops.getF (ops.layoutF s0 axis_len) idx).map
          (Option.map (fun tk =>
            { label := tk.label, pos := tk.pos.map (fun p => axis_len - p) }))) ∧
    (ReverseTicker.len ops (ReverseTicker.layout ops (ReverseTicker.new s0) axis_len)
      = ops.lenF (ops.layoutF s0 axis_len)) ∧
    (ReverseTicker.get (reverseOps ops)
        (ReverseTicker.layout (reverseOps ops)
          (ReverseTicker.new (ReverseTicker.new s0)) axis_len) idx
      = ops.getF (ops.layoutF s0 axis_len) idx) := by
  refine ⟨?_, rfl, ?_⟩
  · cases h : ops.getF (ops.layoutF s0 axis_len) idx with
    | error msg =>
      simp [ReverseTicker.get, ReverseTicker.layout, ReverseTicker.new, h, Except.map]
    | ok o =>
      cases o with
      | none =>
        simp [ReverseTicker.get, ReverseTicker.layout, ReverseTicker.new, h, Except.map]
      | some tk =>
        simp [ReverseTicker.get, ReverseTicker.layout, ReverseTicker.new, h, Except.map]
  · cases h : ops.getF (ops.layoutF s0 axis_len) idx with
    | error msg =>
      simp [ReverseTicker.get, ReverseTicker.layout, ReverseTicker.new, reverseOps, h]
    | ok o =>
      cases o with
      | none =>
        simp [ReverseTicker.get, ReverseTicker.layout, ReverseTicker.new, reverseOps, h]
      | some tk =>
        obtain ⟨tpos, tlabel⟩ := tk
        cases tpos with
        | none =>
          simp [ReverseTicker.get, ReverseTicker.layout, ReverseTicker.new, reverseOps, h]
        | some p =>
          simp only [ReverseTicker.get, ReverseTicker.layout, ReverseTicker.new, reverseOps,
            h, Option.map_some']
          have hp : axis_len - (axis_len - p) = p := by ring
          simp [hp]

/-- C8 (counterexample to the blanket claim): the sequence-backed
`SpaceAroundTicker`'s `len` does not depend on `layout` and succeeds on a
ticker whose layout never ran, rather than panicking. -/
theorem query_before_layout_counterexample :
    SpaceAroundTicker.len categoricalStringOps
      (SpaceAroundTicker.new ["a", "b", "c"]) = .ok 3 := rfl

/-- C8 (amended): `IntervalTicker::len`, `IntervalTicker::get`,
`ReverseTicker::get` and the space tickers' `get` all panic (fail fast)
when invoked on a ticker whose layout has never run; the sequence-backed
tickers' `len`, by contrast, just returns the sequence length. -/
theorem query_before_layout_panics :
    (∀ i : Interval, (IntervalTicker.new i).len = .error "layout not called") ∧
    (∀ (i : Interval) (idx : ℕ),
      (IntervalTicker.new i).get idx = .error "layout not called") ∧
    (∀ (i : Interval) (idx : ℕ),
      ReverseTicker.get intervalTickerOps (ReverseTicker.new (IntervalTicker.new i)) idx
        = .error "layout not called") ∧
    (∀ (l : List String) (idx : ℕ) (itm : String), l.get? idx = some itm →
      SpaceAroundTicker.get categoricalStringOps (SpaceAroundTicker.new l) idx
        = .error "called unwrap on None") ∧
    (∀ (l : List String) (idx : ℕ) (itm : String), l.get? idx = some itm →
      SpaceBetweenTicker.get categoricalStringOps (SpaceBetweenTicker.new l) idx
        = .error "called unwrap on None") := by
  refine ⟨fun i => rfl, fun i idx => rfl, fun i idx => rfl, ?_, ?_⟩
  · intro l idx itm h
    rw [List.get?_eq_getElem?] at h
    simp [SpaceAroundTicker.get, SpaceAroundTicker.new, categoricalStringOps, h]
  · intro l idx itm h
    rw [List.get?_eq_getElem?] at h
    simp [SpaceBetweenTicker.get, SpaceBetweenTicker.new, categoricalStringOps, h]

/-- Witness for C8 (amended) at the categorical list `["a", "b"]`, index 0. -/
theorem query_before_layout_panics_witness :
    ["a", "b"].get? 0 = some "a" ∧
      SpaceAroundTicker.get categoricalStringOps (SpaceAroundTicker.new ["a", "b"]) 0
        = .error "called unwrap on None" :=
  ⟨rfl, query_before_layout_panics.2.2.2.1 ["a", "b"] 0 "a" rfl⟩

/-- The stride-1 selection is all indices. -/
theorem strided_one (n : ℕ) : strided n 1 = List.range n := by
  simp [strided, Nat.mod_one]

/-- The empty selection trivially passes the overlap test. -/
theorem test_layouts_fit_nil (direction : Direction) (layoutSizes : List Size)
    (tickPos : ℕ → ℚ) : test_layouts_fit direction layoutSizes tickPos [] = true := by
  cases direction <;> rfl

/-- C2: `fit_labels` tries strides `1, 2, …, ⌈N/2⌉` in order and keeps the
first non-overlapping strided selection.  Consequently: if all labels fit
at stride 1 the selection is all `N` indices; if no stride fits the
selection is empty (no error); the final selection always passes the
overlap test; and a non-empty selection always contains index 0. -/
theorem fit_labels_spec (direction : Direction) (layoutSizes : List Size)
    (tickPos : ℕ → ℚ) :
    (test_layouts_fit direction layoutSizes tickPos
        (strided layoutSizes.length 1) = true →
      fit_labels direction layoutSizes tickPos = List.range layoutSizes.length) ∧
    ((∀ step, 1 ≤ step → step ≤ (layoutSizes.length + 1) / 2 →
        test_layouts_fit direction layoutSizes tickPos
          (strided layoutSizes.length step) = false) →
      fit_labels direction layoutSizes tickPos = []) ∧
    (test_layouts_fit direction layoutSizes tickPos
      (fit_labels direction layoutSizes tickPos) = true) ∧
    (fit_labels direction layoutSizes tickPos ≠ [] →
      0 ∈ fit_labels direction layoutSizes tickPos) := by
  refine ⟨?_, ?_, ?_, ?_⟩
  · intro h
    simp only [fit_labels]
    rcases hlen : layoutSizes.length with - | m
    · rfl
    · rw [hlen] at h
      have h2 : (m + 1 + 1) / 2 = ((m + 1 + 1) / 2 - 1) + 1 := by omega
      rw [h2, List.range'_succ]
      have hfind : List.find?
          (fun step => test_layouts_fit direction layoutSizes tickPos (strided (m + 1) step))
          (1 :: List.range' (1 + 1) ((m + 1 + 1) / 2 - 1)) = some 1 :=
        List.find?_cons_of_pos _ h
      rw [hfind]
      exact strided_one (m + 1)
  · intro h
    simp only [fit_labels]
    have hfind : (List.range' 1 ((layoutSizes.length + 1) / 2)).find?
        (fun step => test_layouts_fit direction layoutSizes tickPos
          (strided layoutSizes.length step)) = none := by
      apply List.find?_eq_none.mpr
      intro x hx
      obtain ⟨hx1, hx2⟩ := List.mem_range'_1.mp hx
      rw [h x hx1 (by omega)]
      simp
    rw [hfind]
  · simp only [fit_labels]
    rcases hfind : (List.range' 1 ((layoutSizes.length + 1) / 2)).find?
        (fun step => test_layouts_fit direction layoutSizes tickPos
          (strided layoutSizes.length step)) with - | step
    · exact test_layouts_fit_nil direction layoutSizes tickPos
    · have hb := List.find?_some hfind
      exact hb
  · intro hne
    simp only [fit_labels] at hne ⊢
    rcases hfind : (List.range' 1 ((layoutSizes.length + 1) / 2)).find?
        (fun step => test_layouts_fit direction layoutSizes tickPos
          (strided layoutSizes.length step)) with - | step
    · rw [hfind] at hne
      exact absurd rfl hne
    · show 0 ∈ strided layoutSizes.length step
      have hn0 : 0 < layoutSizes.length := by
        rcases Nat.eq_zero_or_pos layoutSizes.length with h0 | hpos
        · rw [h0] at hne
          simp [strided] at hne
        · exact hpos
      simp only [strided, List.mem_filter]
      exact ⟨List.mem_range.mpr hn0, by simp⟩

/-- Witness for C2: two 4-wide labels 10 apart on a horizontal axis all fit
at stride 1, so `fit_labels` keeps both indices. -/
theorem fit_labels_spec_witness :
    (test_layouts_fit .Horizontal [⟨4, 2⟩, ⟨4, 2⟩] (fun i => 10 * i)
        (strided 2 1) = true) ∧
    fit_labels .Horizontal [⟨4, 2⟩, ⟨4, 2⟩] (fun i => 10 * i) = List.range 2 := by
  have h : test_layouts_fit .Horizontal [⟨4, 2⟩, ⟨4, 2⟩] (fun i => 10 * i)
      (strided 2 1) = true := by
    norm_num [test_layouts_fit, fitGo, strided, List.range, List.range.loop]
  exact ⟨h, (fit_labels_spec .Horizontal [⟨4, 2⟩, ⟨4, 2⟩] (fun i => 10 * i)).1 h⟩

/-- C5: placement formulas of the two discrete tickers over a categorical
sequence, and the behaviour at the empty sequence.  `SpaceAroundTicker`
places item `idx` at `axis_len / n * (idx + 1/2)` for every sequence
(items beyond the sequence give `none`); `SpaceBetweenTicker` places item
`idx` at `axis_len / max(n-1, 1) * idx` for every non-empty sequence —
but for the empty sequence its `layout` underflows the `usize`
subtraction `len - 1` (modelled as `none`) instead of flooring the
divisor to 1. -/
theorem space_ticker_placement :
    (∀ (l : List String) (axis_len : ℚ) (idx : ℕ),
      SpaceAroundTicker.get categoricalStringOps
          (SpaceAroundTicker.layout categoricalStringOps
            (SpaceAroundTicker.new l) axis_len) idx
        = .ok ((l.get? idx).map
            (fun itm =>
              { pos := some (axis_len / (l.length : ℚ) * ((idx : ℚ) + 1 / 2)),
                label := itm }))) ∧
    (∀ (x : String) (rest : List String) (axis_len : ℚ) (idx : ℕ),
      SpaceBetweenTicker.layout categoricalStringOps
          (SpaceBetweenTicker.new (x :: rest)) axis_len
        = some { sequence := x :: rest,
                 gap := some (axis_len / ((max rest.length 1 : ℕ) : ℚ)) } ∧
      SpaceBetweenTicker.get categoricalStringOps
          { sequence := x :: rest,
            gap := some (axis_len / ((max rest.length 1 : ℕ) : ℚ)) } idx
        = .ok (((x :: rest).get? idx).map
            (fun itm =>
              { pos := some (axis_len / ((max rest.length 1 : ℕ) : ℚ) * (idx : ℚ)),
                label := itm }))) ∧
    (∀ axis_len : ℚ,
      SpaceBetweenTicker.layout categoricalStringOps
        (SpaceBetweenTicker.new []) axis_len = none) := by
  refine ⟨?_, ?_, fun axis_len => rfl⟩
  · intro l axis_len idx
    cases h : l.get? idx with
    | none =>
      rw [List.get?_eq_getElem?] at h
      simp [SpaceAroundTicker.get, SpaceAroundTicker.layout, SpaceAroundTicker.new,
        categoricalStringOps, h]
    | some itm =>
      rw [List.get?_eq_getElem?] at h
      simp [SpaceAroundTicker.get, SpaceAroundTicker.layout, SpaceAroundTicker.new,
        categoricalStringOps, h]
      ring_nf
  · intro x rest axis_len idx
    refine ⟨rfl, ?_⟩
    cases h : (x :: rest).get? idx with
    | none =>
      rw [List.get?_eq_getElem?] at h
      simp [SpaceBetweenTicker.get, categoricalStringOps, h]
    | some itm =>
      rw [List.get?_eq_getElem?] at h
      simp [SpaceBetweenTicker.get, categoricalStringOps, h]
      ring_nf

/-- C7: the `Numeric` sequence: construction fails fast exactly when the
step is not positive (finiteness is automatic in the rational model);
`len` is `⌊(max - min) / step⌋`; `get idx` is `min + idx * step` when that
is at most `max`, `none` otherwise. -/
theorem numeric_sequence_spec (i : Interval) (s : ℚ) :
    ((∃ nq : Numeric, Numeric.from_interval_step i s = some nq) ↔ 0 < s) ∧
    (∀ idx : ℕ, Numeric.get { interval := i, step := s } idx
      = if i.min + (idx : ℚ) * s ≤ i.max then some (i.min + (idx : ℚ) * s) else none) ∧
    (i.is_valid → 0 < s →
      (Numeric.len { interval := i, step := s } : ℤ) = ⌊(i.max - i.min) / s⌋) := by
  refine ⟨?_, ?_, ?_⟩
  · constructor
    · rintro ⟨nq, hnq⟩
      by_contra hc
      simp [Numeric.from_interval_step, hc] at hnq
    · intro hs
      exact ⟨{ interval := i, step := s }, by simp [Numeric.from_interval_step, hs]⟩
  · intro idx
    simp only [Numeric.get]
    split_ifs with h1 h2 h2
    · linarith
    · rfl
    · rfl
    · linarith
  · intro hv hs
    have h1 : (0 : ℚ) ≤ (i.max - i.min) / s := by
      have : 0 < i.max - i.min := sub_pos.mpr hv
      positivity
    have h2 : 0 ≤ ⌊(i.max - i.min) / s⌋ := Int.floor_nonneg.mpr h1
    simp only [Numeric.len]
    omega

/-- Witness for C7 at the interval `[0, 10]` with step `2`. -/
theorem numeric_sequence_spec_witness :
    Interval.is_valid ⟨0, 10⟩ ∧ (0 : ℚ) < 2 ∧
      (Numeric.len { interval := ⟨0, 10⟩, step := 2 } : ℤ) = ⌊((10 : ℚ) - 0) / 2⌋ :=
  ⟨by norm_num [Interval.is_valid], by norm_num,
    (numeric_sequence_spec ⟨0, 10⟩ 2).2.2 (by norm_num [Interval.is_valid]) (by norm_num)⟩

/-- C10 (code evaluated at the failing input): folding the strictly
decreasing value list `[2, 1]` from the `{min: +∞, max: -∞}` sentinel
leaves `max = -∞` — because `extend_to`'s `else if` is skipped whenever
the minimum shrinks — so the result is invalid even though the input has
two distinct finite values.  An increasing list behaves as documented,
and the sentinel itself is never valid. -/
theorem interval_fold_code_bug :
    IntervalE.from_iter [2, 1] = { min := .finite 1, max := .ninf } ∧
    IntervalE.is_valid (IntervalE.from_iter [2, 1]) = false ∧
    IntervalE.from_iter [1, 2, 3] = { min := .finite 1, max := .finite 3 } ∧
    IntervalE.is_valid IntervalE.default = false := by
  refine ⟨by decide, by decide, by decide, by decide⟩

end Mapo
